import Mathlib

/-!
Shallow embedding of the diffusion engine in `difs/diffusion.py` and
`difs/models.py`.  Tensors are modelled element-wise over `ℝ` (every engine
operation under scrutiny is an element-wise affine map with per-timestep
scalar coefficients broadcast over the sample), schedules as `List ℝ`, and
the random-number generator as an explicit stream `ω : ℕ → ℝ` together with
a draw counter, so that "a noise draw occurs" is the counter advancing.
Python `float` arithmetic is idealised as real arithmetic.
-/

namespace DifS

/-- `torch.clip x lo hi` (elementwise clamp). -/
noncomputable def clip (x lo hi : ℝ) : ℝ := max lo (min x hi)

/-- `torch.linspace a b n`: `n` evenly spaced points from `a` to `b`
(`[a]` when `n = 1`). -/
noncomputable def linspace (a b : ℝ) (n : ℕ) : List ℝ :=
  (List.range n).map (fun i : ℕ =>
    if n ≤ 1 then a else a + (b - a) * (i : ℝ) / ((n : ℝ) - 1))

/-- `linear_beta_schedule` (diffusion.py lines 28-32):
`scale = 1000/timesteps`, betas linearly spaced from `scale*1e-4` to
`scale*2e-2`. -/
noncomputable def linear_beta_schedule (timesteps : ℕ) : List ℝ :=
  linspace ((1000 / timesteps) * 0.0001) ((1000 / timesteps) * 0.02) timesteps

/-- The un-normalized cosine `alphas_cumprod` curve of
`cosine_beta_schedule` (diffusion.py line 41) evaluated at grid point `x`
of `torch.linspace 0 timesteps (timesteps+1)`. -/
noncomputable def cosineAcpRaw (timesteps : ℕ) (x : ℕ) : ℝ :=
  Real.cos ((((x : ℝ) / (timesteps : ℝ)) + 0.008) / (1 + 0.008) * Real.pi * 0.5) ^ 2

/-- The normalized cosine curve `alphas_cumprod / alphas_cumprod[0]`
(diffusion.py line 42). -/
noncomputable def cosineAcp (timesteps : ℕ) (x : ℕ) : ℝ :=
  cosineAcpRaw timesteps x / cosineAcpRaw timesteps 0

/-- `cosine_beta_schedule` (diffusion.py lines 34-44):
`betas[i] = 1 - acp(i+1)/acp(i)`, clipped to `[0, 0.999]`. -/
noncomputable def cosine_beta_schedule (timesteps : ℕ) : List ℝ :=
  (List.range timesteps).map (fun i =>
    clip (1 - cosineAcp timesteps (i + 1) / cosineAcp timesteps i) 0 0.999)

/-- `torch.cumprod` on a list: `cumprod [a, b, c] = [a, a*b, a*b*c]`. -/
noncomputable def cumprod : List ℝ → List ℝ
  | [] => []
  | a :: as => a :: (cumprod as).map (fun c => a * c)

/-- `alphas = 1 - betas` (diffusion.py line 88). -/
noncomputable def alphasOf (betas : List ℝ) : List ℝ := betas.map (fun b => 1 - b)

/-- `alphas_cumprod = torch.cumprod(1 - betas)` (diffusion.py line 89). -/
noncomputable def alphasCumprodOf (betas : List ℝ) : List ℝ := cumprod (alphasOf betas)

/-- The registered buffer `sqrt_recip_alphas_cumprod = sqrt(1/alphas_cumprod)`
(diffusion.py line 113). -/
noncomputable def sqrt_recip_alphas_cumprod (betas : List ℝ) : List ℝ :=
  (alphasCumprodOf betas).map (fun a => Real.sqrt (1 / a))

/-- The registered buffer `sqrt_recipm1_alphas_cumprod = sqrt(1/alphas_cumprod - 1)`
(diffusion.py line 114). -/
noncomputable def sqrt_recipm1_alphas_cumprod (betas : List ℝ) : List ℝ :=
  (alphasCumprodOf betas).map (fun a => Real.sqrt (1 / a - 1))

/-- The registered buffer `sqrt_alphas_cumprod` (diffusion.py line 110). -/
noncomputable def sqrt_alphas_cumprod (betas : List ℝ) : List ℝ :=
  (alphasCumprodOf betas).map Real.sqrt

/-- The registered buffer `sqrt_one_minus_alphas_cumprod` (diffusion.py line 111). -/
noncomputable def sqrt_one_minus_alphas_cumprod (betas : List ℝ) : List ℝ :=
  (alphasCumprodOf betas).map (fun a => Real.sqrt (1 - a))

/-- `extract(a, t, shape)` (diffusion.py lines 23-26): gather the per-batch
scalar `a[t]`, broadcast over the sample.  Element-wise model: a plain lookup. -/
noncomputable def extract (a : List ℝ) (t : ℕ) : ℝ := a.getD t 0

/-- `q_sample` (diffusion.py lines 304-311):
`sqrt_alphas_cumprod[t] * x_start + sqrt_one_minus_alphas_cumprod[t] * noise`. -/
noncomputable def q_sample (betas : List ℝ) (x_start : ℝ) (t : ℕ) (noise : ℝ) : ℝ :=
  extract (sqrt_alphas_cumprod betas) t * x_start +
    extract (sqrt_one_minus_alphas_cumprod betas) t * noise

/-- `predict_start_from_noise` (diffusion.py lines 145-149). -/
noncomputable def predict_start_from_noise (betas : List ℝ) (x_t : ℝ) (t : ℕ) (noise : ℝ) : ℝ :=
  extract (sqrt_recip_alphas_cumprod betas) t * x_t -
    extract (sqrt_recipm1_alphas_cumprod betas) t * noise

/-- `predict_noise_from_start` (diffusion.py lines 151-155). -/
noncomputable def predict_noise_from_start (betas : List ℝ) (x_t : ℝ) (t : ℕ) (x0 : ℝ) : ℝ :=
  (extract (sqrt_recip_alphas_cumprod betas) t * x_t - x0) /
    extract (sqrt_recipm1_alphas_cumprod betas) t

/-- Python/torch list indexing with negative wrap-around: `l[i]` is
`l[len l + i]` for `i < 0`.  (Only in-range indices are exercised by the
engine; out-of-range access raises in Python and is not modelled.) -/
noncomputable def pyGet (l : List ℝ) (i : ℤ) : ℝ :=
  if i < 0 then l.getD (l.length - (-i).toNat) 0 else l.getD i.toNat 0

/-- `GaussianDiffusionConditionalTrainer.diffuse` (diffusion.py lines 648-664):
`alphas = 1 - betas; alpha_t = alphas[target_timestep - 1];
sqrt(alpha_t)*data + sqrt(1-alpha_t)*noise`.
(The `no_grad` flag only toggles gradient tracking; both branches compute the
same expression.) -/
noncomputable def diffuse (betas : List ℝ) (data : ℝ) (target_timestep : ℤ) (noise : ℝ) : ℝ :=
  Real.sqrt (pyGet (alphasOf betas) (target_timestep - 1)) * data +
    Real.sqrt (1 - pyGet (alphasOf betas) (target_timestep - 1)) * noise

/-- `p_sample` (diffusion.py lines 220-227), with the posterior mean and
log-variance produced by `p_mean_variance` taken as inputs (the claim fixes
them).  Samples are modelled element-wise over a batch `Fin b → ℝ`, and the
RNG as a stream `ω` of noise vectors with a draw counter: `torch.randn_like`
reads `ω g` and advances the counter; at `t = 0` the Python ternary
evaluates to the scalar `0.` and no draw occurs. -/
noncomputable def p_sample (b : ℕ) (model_mean model_log_variance : Fin b → ℝ)
    (t : ℕ) (ω : ℕ → Fin b → ℝ) (g : ℕ) : (Fin b → ℝ) × ℕ :=
  let noise : (Fin b → ℝ) × ℕ := if 0 < t then (ω g, g + 1) else (fun _ => 0, g)
  (fun i => model_mean i + Real.exp (0.5 * model_log_variance i) * noise.1 i, noise.2)

/-- `forward_with_cond_scale` (models.py lines 309-330 and, identically,
lines 496-517).  The network forward is abstracted as `fwd : ℝ → ι → ℝ`
from its `cond_drop_prob` argument to its output (sample, timestep batch,
condition, and initial-state are fixed by the claim); `stdFn` abstracts the
per-sample `torch.std` over non-batch dimensions.  The second component
records the `cond_drop_prob` of each `forward` invocation, in order. -/
noncomputable def forward_with_cond_scale {ι : Type} (fwd : ℝ → ι → ℝ)
    (stdFn : (ι → ℝ) → ℝ) (cond_scale rescaled_phi : ℝ) : (ι → ℝ) × List ℝ :=
  let logits := fwd 0
  if cond_scale = 1 then (logits, [0])
  else
    let null_logits := fwd 1
    let scaled_logits := fun i => null_logits i + (logits i - null_logits i) * cond_scale
    if rescaled_phi = 0 then (scaled_logits, [0, 1])
    else
      let rescaled_logits := fun i => scaled_logits i * (stdFn logits / stdFn scaled_logits)
      (fun i => rescaled_logits i * rescaled_phi + scaled_logits i * (1 - rescaled_phi),
        [0, 1])

/-- Truncation toward zero, as `torch.Tensor.int()` does. -/
def truncInt (q : ℚ) : ℤ := if q < 0 then ⌈q⌉ else ⌊q⌋

/-- `torch.linspace` over exact rationals (used only for the integer-valued
DDIM time grid, where float32 and exact arithmetic agree). -/
def linspaceQ (a b : ℚ) (n : ℕ) : List ℚ :=
  (List.range n).map (fun i : ℕ =>
    if n ≤ 1 then a else a + (b - a) * (i : ℚ) / ((n : ℚ) - 1))

/-- The reversed DDIM time grid (diffusion.py lines 245-246):
`times = list(reversed(torch.linspace(-1, T-1, sampling+1).int().tolist()))`. -/
def ddimTimes (total_timesteps sampling_timesteps : ℕ) : List ℤ :=
  ((linspaceQ (-1) ((total_timesteps : ℚ) - 1) (sampling_timesteps + 1)).map
    truncInt).reverse

/-- `time_pairs = list(zip(times[:-1], times[1:]))` (diffusion.py line 247). -/
def ddimTimePairs (total_timesteps sampling_timesteps : ℕ) : List (ℤ × ℤ) :=
  (ddimTimes total_timesteps sampling_timesteps).zip
    (ddimTimes total_timesteps sampling_timesteps).tail

/-- The body of the `ddim_sample` loop (diffusion.py lines 253-272),
element-wise over one sample component.  `model_predictions` is abstracted
as `mp : ℝ → ℤ → ℝ × ℝ`, giving `(pred_noise, x_start)` for the current
image and time (condition, initial-state, `cond_scale` and `rescaled_phi`
are fixed by the claim), and `alphas_cumprod` as `acp`.  `torch.randn_like`
reads the stream `ω` at the draw counter and advances the counter. -/
noncomputable def ddim_loop (mp : ℝ → ℤ → ℝ × ℝ) (acp : ℕ → ℝ) (eta : ℝ)
    (ω : ℕ → ℝ) : List (ℤ × ℤ) → ℝ → ℕ → ℝ × ℕ
  | [], img, g => (img, g)
  | (time, time_next) :: rest, img, g =>
    let pred := mp img time
    if time_next < 0 then ddim_loop mp acp eta ω rest pred.2 g
    else
      let alpha := acp time.toNat
      let alpha_next := acp time_next.toNat
      let sigma := eta * Real.sqrt ((1 - alpha / alpha_next) * (1 - alpha_next) / (1 - alpha))
      let c := Real.sqrt (1 - alpha_next - sigma ^ 2)
      ddim_loop mp acp eta ω rest
        (pred.2 * Real.sqrt alpha_next + c * pred.1 + sigma * ω g) (g + 1)

/-- `GaussianDiffusionConditional.ddim_sample` (diffusion.py lines 242-275):
the initial image is itself a draw (`torch.randn(shape)`), then the loop
runs over the time pairs.  `auto_normalize` defaults to `False`, so the
final `unnormalize` is the identity. -/
noncomputable def ddim_sample (mp : ℝ → ℤ → ℝ × ℝ) (acp : ℕ → ℝ) (eta : ℝ)
    (num_timesteps sampling_timesteps : ℕ) (ω : ℕ → ℝ) (g : ℕ) : ℝ × ℕ :=
  ddim_loop mp acp eta ω (ddimTimePairs num_timesteps sampling_timesteps) (ω g) (g + 1)

/-- The trainer `ddim_sample`'s time grid (diffusion.py lines 552-558): a
supplied `starting_timestep` overwrites both `total_timesteps` and
`sampling_timesteps` before the grid is built. -/
def trainer_ddim_times (num_timesteps sampling_timesteps : ℕ)
    (starting_timestep : Option ℕ) : List ℤ :=
  match starting_timestep with
  | some s => ddimTimes s s
  | none => ddimTimes num_timesteps sampling_timesteps

/-- `GaussianDiffusionConditionalTrainer.ddim_sample` (diffusion.py lines
549-589): optional `starting_data` replaces the initial `torch.randn` draw,
optional `starting_timestep` overrides the time grid; the loop body is the
same as the conditional engine's. -/
noncomputable def trainer_ddim_sample (mp : ℝ → ℤ → ℝ × ℝ) (acp : ℕ → ℝ) (eta : ℝ)
    (num_timesteps sampling_timesteps : ℕ) (starting_data : Option ℝ)
    (starting_timestep : Option ℕ) (ω : ℕ → ℝ) (g : ℕ) : ℝ × ℕ :=
  let times := trainer_ddim_times num_timesteps sampling_timesteps starting_timestep
  let start : ℝ × ℕ :=
    match starting_data with
    | none => (ω g, g + 1)
    | some d => (d, g)
  ddim_loop mp acp eta ω (times.zip times.tail) start.1 start.2

/-- The engine state recorded by `GaussianDiffusionConditional.__init__`
(diffusion.py lines 47-143; the trainer `__init__`, lines 359-452, is
identical in everything the claim touches). -/
structure Engine where
  num_timesteps : ℕ
  sampling_timesteps : ℕ
  betas : List ℝ
  objective : String
  beta_schedule : String

/-- The schedule branch of `__init__` (diffusion.py lines 81-86):
`linear_beta_schedule(0)` raises `ZeroDivisionError` on
`scale = 1000/timesteps`; the cosine builder never raises — for
`timesteps = 0` it slices an all-`nan` length-1 tensor into an *empty*
betas tensor; an unknown kind raises `ValueError`. -/
noncomputable def build_betas (beta_schedule : String) (timesteps : ℕ) :
    Except String (List ℝ) :=
  if beta_schedule = "linear" then
    (if timesteps = 0 then Except.error "ZeroDivisionError"
     else Except.ok (linear_beta_schedule timesteps))
  else if beta_schedule = "cosine" then Except.ok (cosine_beta_schedule timesteps)
  else Except.error "ValueError: unknown beta schedule"

/-- The tail of `__init__` (diffusion.py lines 92-98): `timesteps, =
betas.shape` rebinds the count to `len(betas)`, `sampling_timesteps`
defaults to it, and `assert sampling_timesteps <= timesteps`. -/
noncomputable def finish_init (objective beta_schedule : String)
    (sampling_timesteps : Option ℕ) (betas : List ℝ) : Except String Engine :=
  if sampling_timesteps.getD betas.length ≤ betas.length then
    Except.ok ⟨betas.length, sampling_timesteps.getD betas.length, betas,
      objective, beta_schedule⟩
  else Except.error "AssertionError: sampling_timesteps <= timesteps"

/-- `__init__` in the source's evaluation order: the `objective` assert
(line 78) runs first, then the schedule branch, then the sampling assert. -/
noncomputable def engine_init (objective beta_schedule : String) (timesteps : ℕ)
    (sampling_timesteps : Option ℕ) : Except String Engine :=
  if objective = "pred_noise" ∨ objective = "pred_x0" ∨ objective = "pred_v" then
    match build_betas beta_schedule timesteps with
    | Except.error e => Except.error e
    | Except.ok betas => finish_init objective beta_schedule sampling_timesteps betas
  else Except.error "AssertionError: objective"

def isOk : Except String Engine → Bool
  | Except.ok _ => true
  | Except.error _ => false

/-- `predict_v` (diffusion.py lines 157-161). -/
noncomputable def predict_v (betas : List ℝ) (x_start : ℝ) (t : ℕ) (noise : ℝ) : ℝ :=
  extract (sqrt_alphas_cumprod betas) t * noise -
    extract (sqrt_one_minus_alphas_cumprod betas) t * x_start

/-- One recorded invocation of the denoising network inside `p_losses`. -/
structure ModelCall (b dc di : ℕ) where
  x : Fin b → ℝ
  t : Fin b → ℕ
  cond : Fin b → Fin dc → ℝ
  inits : Fin b → Fin di → ℝ

/-- `p_losses` (diffusion.py lines 313-344), element-wise over a batch of
scalar samples.  `torch.rand(cond.shape) > self.drop_prob` draws one
uniform variate per *element* of the condition tensor; the oracles
`u_cond` and `u_inits` supply those independent draws, and multiplying by
the boolean mask keeps an element iff its draw exceeds `drop_prob`.  The
network is abstracted as `M`; the second component records its single
invocation.  (The objective branch's final case models `pred_v`; unknown
objectives are rejected at construction.) -/
noncomputable def p_losses (b dc di : ℕ) (betas : List ℝ)
    (classifier_free_guidance : Bool) (drop_prob : ℝ) (objective : String)
    (loss_weight : List ℝ) (M : ModelCall b dc di → Fin b → ℝ)
    (x_start : Fin b → ℝ) (t : Fin b → ℕ)
    (cond : Fin b → Fin dc → ℝ) (inits : Fin b → Fin di → ℝ)
    (noise : Fin b → ℝ)
    (u_cond : Fin b → Fin dc → ℝ) (u_inits : Fin b → Fin di → ℝ) :
    ℝ × ModelCall b dc di :=
  let cond' := if classifier_free_guidance then
      fun i j => cond i j * (if drop_prob < u_cond i j then 1 else 0)
    else cond
  let inits' := if classifier_free_guidance then
      fun i j => inits i j * (if drop_prob < u_inits i j then 1 else 0)
    else inits
  let x := fun i => q_sample betas (x_start i) (t i) (noise i)
  let call : ModelCall b dc di := ⟨x, t, cond', inits'⟩
  let model_out := M call
  let target := if objective = "pred_noise" then noise
    else if objective = "pred_x0" then x_start
    else fun i => predict_v betas (x_start i) (t i) (noise i)
  let loss := fun i => (model_out i - target i) ^ 2
  let weighted := fun i => loss i * extract loss_weight (t i)
  ((∑ i, weighted i) / b, call)

/-- All-ones condition batch used in the C9 counterexample. -/
noncomputable def condOnes : Fin 1 → Fin 2 → ℝ := fun _ _ => 1

/-- Uniform draws that keep element 0 and drop element 1 of the single
condition vector. -/
noncomputable def uSplit : Fin 1 → Fin 2 → ℝ := fun _ j => if j = 0 then 1 else 0

noncomputable def zeroVec1 : Fin 1 → ℝ := fun _ => 0

noncomputable def zeroMat1 : Fin 1 → Fin 1 → ℝ := fun _ _ => 0

noncomputable def zeroModel : ModelCall 1 2 1 → Fin 1 → ℝ := fun _ _ => 0

def zeroT : Fin 1 → ℕ := fun _ => 0

theorem cumprod_length (l : List ℝ) : (cumprod l).length = l.length := by
  induction l with
  | nil => simp [cumprod]
  | cons a as ih => simp [cumprod, ih]

theorem cumprod_pos_le_one {l : List ℝ} (h : ∀ x ∈ l, 0 < x ∧ x ≤ 1) :
    ∀ y ∈ cumprod l, 0 < y ∧ y ≤ 1 := by
  induction l with
  | nil => intro y hy; simp [cumprod] at hy
  | cons a as ih =>
    intro y hy
    have ha := h a (by simp)
    have h' : ∀ x ∈ as, 0 < x ∧ x ≤ 1 := fun x hx => h x (by simp [hx])
    simp only [cumprod, List.mem_cons, List.mem_map] at hy
    rcases hy with rfl | ⟨c, hc, rfl⟩
    · exact ha
    · have hc' := ih h' c hc
      exact ⟨mul_pos ha.1 hc'.1,
        le_trans (mul_le_of_le_one_right (le_of_lt ha.1) hc'.2) ha.2⟩

theorem cumprod_antitone {l : List ℝ} (h : ∀ x ∈ l, 0 < x ∧ x ≤ 1) :
    List.Chain' (fun x y => y ≤ x) (cumprod l) := by
  induction l with
  | nil => simp [cumprod]
  | cons a as ih =>
    have ha := h a (by simp)
    have h' : ∀ x ∈ as, 0 < x ∧ x ≤ 1 := fun x hx => h x (by simp [hx])
    show List.Chain' (fun x y => y ≤ x) (a :: (cumprod as).map (fun c => a * c))
    apply List.chain'_cons'.mpr
    refine ⟨?_, ?_⟩
    · intro b hb
      cases hcp : cumprod as with
      | nil => rw [hcp] at hb; simp at hb
      | cons c cs =>
        rw [hcp] at hb
        simp only [List.map_cons, List.head?_cons, Option.mem_def, Option.some.injEq] at hb
        subst hb
        have hc := cumprod_pos_le_one h' c (by rw [hcp]; simp)
        exact mul_le_of_le_one_right (le_of_lt ha.1) hc.2
    · rw [List.chain'_map]
      exact (ih h').imp (fun x y hxy => mul_le_mul_of_nonneg_left hxy (le_of_lt ha.1))

theorem linear_beta_schedule_length (T : ℕ) : (linear_beta_schedule T).length = T := by
  rw [linear_beta_schedule, linspace, List.length_map, List.length_range]

theorem cosine_beta_schedule_length (T : ℕ) : (cosine_beta_schedule T).length = T := by
  simp [cosine_beta_schedule]

theorem cosine_beta_bounds (T : ℕ) :
    ∀ b ∈ cosine_beta_schedule T, 0 ≤ b ∧ b ≤ 0.999 := by
  intro b hb
  simp only [cosine_beta_schedule, List.mem_map, List.mem_range] at hb
  obtain ⟨i, _, rfl⟩ := hb
  unfold clip
  exact ⟨le_max_left _ _, max_le (by norm_num) (min_le_right _ _)⟩

theorem linear_beta_bounds {T : ℕ} (hT : 21 ≤ T) :
    ∀ b ∈ linear_beta_schedule T, 0 < b ∧ b < 1 := by
  intro b hb
  rw [linear_beta_schedule, linspace] at hb
  obtain ⟨i, hi, rfl⟩ := List.mem_map.mp hb
  have hiT0 : i < T := List.mem_range.mp hi
  rw [if_neg (by omega)]
  have htR : (21:ℝ) ≤ (T:ℝ) := by exact_mod_cast hT
  have htpos : (0:ℝ) < (T:ℝ) := by linarith
  have hden : (0:ℝ) < (T:ℝ) - 1 := by linarith
  have hiT : (i:ℝ) ≤ (T:ℝ) - 1 := by
    have : (i:ℝ) + 1 ≤ (T:ℝ) := by exact_mod_cast hiT0
    linarith
  have hipos : (0:ℝ) ≤ (i:ℝ) := Nat.cast_nonneg i
  have hA : (0:ℝ) < 1000 / (T:ℝ) * 0.0001 := by positivity
  have hBA : (1000 / (T:ℝ) * 0.02 - 1000 / (T:ℝ) * 0.0001) = 1000 / (T:ℝ) * 0.0199 := by
    ring
  have hBApos : (0:ℝ) ≤ 1000 / (T:ℝ) * 0.02 - 1000 / (T:ℝ) * 0.0001 := by
    rw [hBA]; positivity
  have hfrac_nonneg :
      (0:ℝ) ≤ (1000 / (T:ℝ) * 0.02 - 1000 / (T:ℝ) * 0.0001) * (i:ℝ) / ((T:ℝ) - 1) :=
    div_nonneg (mul_nonneg hBApos hipos) (le_of_lt hden)
  have hfrac_le :
      (1000 / (T:ℝ) * 0.02 - 1000 / (T:ℝ) * 0.0001) * (i:ℝ) / ((T:ℝ) - 1) ≤
        1000 / (T:ℝ) * 0.02 - 1000 / (T:ℝ) * 0.0001 := by
    rw [div_le_iff₀ hden]
    exact mul_le_mul_of_nonneg_left hiT hBApos
  have hB_lt : 1000 / (T:ℝ) * 0.02 < 1 := by
    rw [show (1000:ℝ) / (T:ℝ) * 0.02 = 20 / (T:ℝ) by ring, div_lt_one htpos]
    linarith
  constructor
  · linarith
  · linarith

theorem acp_invariant_of_alpha_bounds {betas : List ℝ}
    (h : ∀ x ∈ alphasOf betas, 0 < x ∧ x ≤ 1) :
    (∀ y ∈ alphasCumprodOf betas, 0 < y ∧ y ≤ 1) ∧
      List.Chain' (fun x y => y ≤ x) (alphasCumprodOf betas) :=
  ⟨cumprod_pos_le_one h, cumprod_antitone h⟩

theorem cosine_alpha_bounds (T : ℕ) :
    ∀ x ∈ alphasOf (cosine_beta_schedule T), 0 < x ∧ x ≤ 1 := by
  intro x hx
  simp only [alphasOf, List.mem_map] at hx
  obtain ⟨b, hb, rfl⟩ := hx
  have := cosine_beta_bounds T b hb
  constructor <;> linarith [this.1, this.2]

theorem linear_alpha_bounds {T : ℕ} (hT : 21 ≤ T) :
    ∀ x ∈ alphasOf (linear_beta_schedule T), 0 < x ∧ x ≤ 1 := by
  intro x hx
  simp only [alphasOf, List.mem_map] at hx
  obtain ⟨b, hb, rfl⟩ := hx
  have := linear_beta_bounds hT b hb
  constructor <;> linarith [this.1, this.2]

/-- C3 counterexample: for the linear schedule with the valid positive
timestep count `T = 2`, `beta_end = (1000/2)*0.02 = 10`, so the second
entry of `alphas_cumprod` is `0.95 * (-9) = -8.55`, which does not lie in
`(0, 1]`.  The claim, which asserts the invariant for every positive `T`
and either schedule kind, is therefore false. -/
theorem linear2_acp_not_in_unit_interval :
    ¬ (∀ x ∈ alphasCumprodOf (linear_beta_schedule 2), 0 < x ∧ x ≤ 1) := by
  intro h
  have hmem : ((1 - 1000 / 2 * 0.0001) * (1 - (1000 / 2 * 0.0001 +
      (1000 / 2 * 0.02 - 1000 / 2 * 0.0001) * 1 / (2 - 1))) : ℝ) ∈
      alphasCumprodOf (linear_beta_schedule 2) := by
    simp [alphasCumprodOf, alphasOf, linear_beta_schedule, linspace, cumprod,
      List.range_succ]
  have hpos := (h _ hmem).1
  norm_num at hpos

theorem linear_one_alpha_bounds :
    ∀ x ∈ alphasOf (linear_beta_schedule 1), 0 < x ∧ x ≤ 1 := by
  intro x hx
  simp only [alphasOf, linear_beta_schedule, linspace, List.range_succ,
    List.range_zero, List.nil_append, List.map_cons, List.map_nil,
    List.mem_singleton] at hx
  rw [hx, if_pos (le_refl 1)]
  norm_num

/-- C3 (amended): for every positive `T`, both schedule builders return a
list of length `T`; the derived `alphas_cumprod` is monotonically
non-increasing with every entry in `(0, 1]` for the cosine kind (its betas
are clipped into `[0, 0.999]`) at every `T`, and for the linear kind
whenever `21 ≤ T` (so that `beta_end = 20/T < 1`) and also at `T = 1`
(a one-step linspace returns `[beta_start] = [0.1]`, so
`alphas_cumprod = [0.9]`).  The invariant does not hold for every positive
`T` and either kind: at linear `T = 2` the second entry of
`alphas_cumprod` is `0.95 * (-9) = -8.55`, outside `(0, 1]`
(the counterexample). -/
theorem schedule_invariants (T : ℕ) (_hT : 1 ≤ T) :
    (linear_beta_schedule T).length = T ∧
    (cosine_beta_schedule T).length = T ∧
    (∀ y ∈ alphasCumprodOf (cosine_beta_schedule T), 0 < y ∧ y ≤ 1) ∧
    List.Chain' (fun x y => y ≤ x) (alphasCumprodOf (cosine_beta_schedule T)) ∧
    (21 ≤ T →
      (∀ y ∈ alphasCumprodOf (linear_beta_schedule T), 0 < y ∧ y ≤ 1) ∧
      List.Chain' (fun x y => y ≤ x) (alphasCumprodOf (linear_beta_schedule T))) ∧
    (∀ y ∈ alphasCumprodOf (linear_beta_schedule 1), 0 < y ∧ y ≤ 1) ∧
    List.Chain' (fun x y => y ≤ x) (alphasCumprodOf (linear_beta_schedule 1)) := by
  refine ⟨linear_beta_schedule_length T, cosine_beta_schedule_length T, ?_, ?_, ?_,
    (acp_invariant_of_alpha_bounds linear_one_alpha_bounds).1,
    (acp_invariant_of_alpha_bounds linear_one_alpha_bounds).2⟩
  · exact (acp_invariant_of_alpha_bounds (cosine_alpha_bounds T)).1
  · exact (acp_invariant_of_alpha_bounds (cosine_alpha_bounds T)).2
  · intro h21
    exact acp_invariant_of_alpha_bounds (linear_alpha_bounds h21)

theorem schedule_invariants_witness :
    1 ≤ 21 ∧
    ((linear_beta_schedule 21).length = 21 ∧
    (cosine_beta_schedule 21).length = 21 ∧
    (∀ y ∈ alphasCumprodOf (cosine_beta_schedule 21), 0 < y ∧ y ≤ 1) ∧
    List.Chain' (fun x y => y ≤ x) (alphasCumprodOf (cosine_beta_schedule 21)) ∧
    (21 ≤ 21 →
      (∀ y ∈ alphasCumprodOf (linear_beta_schedule 21), 0 < y ∧ y ≤ 1) ∧
      List.Chain' (fun x y => y ≤ x) (alphasCumprodOf (linear_beta_schedule 21))) ∧
    (∀ y ∈ alphasCumprodOf (linear_beta_schedule 1), 0 < y ∧ y ≤ 1) ∧
    List.Chain' (fun x y => y ≤ x) (alphasCumprodOf (linear_beta_schedule 1))) :=
  ⟨by decide, schedule_invariants 21 (by decide)⟩

theorem alphasOf_getD {betas : List ℝ} {n : ℕ} (h : n < betas.length) :
    (alphasOf betas).getD n 0 = 1 - betas.getD n 0 := by
  simp [alphasOf, List.getD_eq_getElem?_getD, List.getElem?_map,
    List.getElem?_eq_getElem h]

/-- C7: for every data tensor, noise, and target timestep `t` in `[1, T-1]`,
`diffuse` returns `sqrt(alpha)*data + sqrt(1-alpha)*noise` with the
instantaneous alpha `alpha = 1 - betas[t-1]` — and that is not the cumulative
product used by `q_sample`, exhibited by a concrete schedule where the two
coefficients disagree at the corresponding index. -/
theorem diffuse_uses_instantaneous_alpha (betas : List ℝ) (data noise : ℝ) (t : ℕ)
    (h1 : 1 ≤ t) (h2 : t ≤ betas.length - 1) :
    diffuse betas data (t : ℤ) noise =
      Real.sqrt (1 - betas.getD (t - 1) 0) * data +
        Real.sqrt (betas.getD (t - 1) 0) * noise ∧
    diffuse [(1:ℝ)/2, 1/2] 1 2 0 ≠ q_sample [(1:ℝ)/2, 1/2] 1 1 0 := by
  constructor
  · have hlt : t - 1 < betas.length := by omega
    have hidx : pyGet (alphasOf betas) ((t : ℤ) - 1) = 1 - betas.getD (t - 1) 0 := by
      rw [pyGet, if_neg (by omega)]
      rw [show ((t : ℤ) - 1).toNat = t - 1 by omega, alphasOf_getD hlt]
    rw [diffuse, hidx,
      show (1 : ℝ) - (1 - betas.getD (t - 1) 0) = betas.getD (t - 1) 0 by ring]
  · have hd : diffuse [(1:ℝ)/2, 1/2] 1 2 0 = Real.sqrt (1/2) := by
      rw [diffuse]
      norm_num [pyGet, alphasOf]
    have hq : q_sample [(1:ℝ)/2, 1/2] 1 1 0 = 1/2 := by
      rw [q_sample]
      norm_num [extract, sqrt_alphas_cumprod, sqrt_one_minus_alphas_cumprod,
        alphasCumprodOf, alphasOf, cumprod]
      rw [show (4:ℝ) = 2^2 by norm_num, Real.sqrt_sq (by norm_num : (0:ℝ) ≤ 2)]
      norm_num
    rw [hd, hq]
    intro hcontra
    have h2 := Real.sq_sqrt (show (0:ℝ) ≤ 1/2 by norm_num)
    rw [hcontra] at h2
    norm_num at h2

theorem diffuse_uses_instantaneous_alpha_witness :
    (1 ≤ 1 ∧ 1 ≤ [(1:ℝ)/2, 1/2].length - 1) ∧
    (diffuse [(1:ℝ)/2, 1/2] 3 ((1:ℕ) : ℤ) 5 =
        Real.sqrt (1 - [(1:ℝ)/2, 1/2].getD (1 - 1) 0) * 3 +
          Real.sqrt ([(1:ℝ)/2, 1/2].getD (1 - 1) 0) * 5 ∧
      diffuse [(1:ℝ)/2, 1/2] 1 2 0 ≠ q_sample [(1:ℝ)/2, 1/2] 1 1 0) :=
  ⟨⟨le_refl 1, by simp⟩,
    diffuse_uses_instantaneous_alpha [(1:ℝ)/2, 1/2] 3 5 1 (le_refl 1) (by simp)⟩

/-- C10: calling `diffuse` with `target_timestep = 0` does not fail: the
index `target_timestep - 1 = -1` wraps around Python-style, so the result
uses the final timestep's instantaneous alpha `1 - betas[T-1]`. -/
theorem diffuse_zero_uses_last_alpha (betas : List ℝ) (data noise : ℝ)
    (h : betas ≠ []) :
    diffuse betas data 0 noise =
      Real.sqrt (1 - betas.getD (betas.length - 1) 0) * data +
        Real.sqrt (betas.getD (betas.length - 1) 0) * noise := by
  have hlen : 0 < betas.length := List.length_pos.mpr h
  have hidx : pyGet (alphasOf betas) ((0 : ℤ) - 1) = 1 - betas.getD (betas.length - 1) 0 := by
    rw [pyGet, if_pos (by norm_num)]
    rw [show (-((0:ℤ) - 1)).toNat = 1 by norm_num,
      show (alphasOf betas).length = betas.length from by simp [alphasOf]]
    exact alphasOf_getD (by omega)
  rw [diffuse, hidx,
    show (1 : ℝ) - (1 - betas.getD (betas.length - 1) 0) = betas.getD (betas.length - 1) 0
      by ring]

theorem diffuse_zero_uses_last_alpha_witness :
    [(1:ℝ)/2, 1/3] ≠ [] ∧
    diffuse [(1:ℝ)/2, 1/3] 2 0 7 =
      Real.sqrt (1 - [(1:ℝ)/2, 1/3].getD ([(1:ℝ)/2, 1/3].length - 1) 0) * 2 +
        Real.sqrt ([(1:ℝ)/2, 1/3].getD ([(1:ℝ)/2, 1/3].length - 1) 0) * 7 :=
  ⟨List.cons_ne_nil _ _,
    diffuse_zero_uses_last_alpha [(1:ℝ)/2, 1/3] 2 7 (List.cons_ne_nil _ _)⟩

theorem cumprod_lt_one {l : List ℝ} (h : ∀ x ∈ l, 0 < x ∧ x < 1) :
    ∀ y ∈ cumprod l, y < 1 := by
  induction l with
  | nil => intro y hy; simp [cumprod] at hy
  | cons a as ih =>
    intro y hy
    have ha := h a (by simp)
    have h' : ∀ x ∈ as, 0 < x ∧ x < 1 := fun x hx => h x (by simp [hx])
    simp only [cumprod, List.mem_cons, List.mem_map] at hy
    rcases hy with rfl | ⟨c, hc, rfl⟩
    · exact ha.2
    · have hcle := cumprod_pos_le_one
        (fun x hx => ⟨(h' x hx).1, le_of_lt (h' x hx).2⟩) c hc
      calc a * c ≤ a := mul_le_of_le_one_right (le_of_lt ha.1) hcle.2
        _ < 1 := ha.2

theorem getD_mem_of_lt {l : List ℝ} {t : ℕ} (h : t < l.length) : l.getD t 0 ∈ l := by
  rw [List.getD_eq_getElem?_getD, List.getElem?_eq_getElem h]
  exact List.getElem_mem h

theorem extract_map {f : ℝ → ℝ} {l : List ℝ} {t : ℕ} (h : t < l.length) :
    extract (l.map f) t = f (l.getD t 0) := by
  simp [extract, List.getD_eq_getElem?_getD, List.getElem?_map,
    List.getElem?_eq_getElem h]

theorem roundtrip_of_acp {betas : List ℝ} {t : ℕ}
    (hacp : 0 < (alphasCumprodOf betas).getD t 0 ∧ (alphasCumprodOf betas).getD t 0 < 1)
    (x_t eps : ℝ) :
    predict_noise_from_start betas x_t t (predict_start_from_noise betas x_t t eps) = eps := by
  have htlen : t < (alphasCumprodOf betas).length := by
    by_contra hc
    push_neg at hc
    rw [List.getD_eq_default _ _ hc] at hacp
    exact lt_irrefl 0 hacp.1
  have hsub : (0:ℝ) < 1 / (alphasCumprodOf betas).getD t 0 - 1 := by
    rw [sub_pos, lt_div_iff₀ hacp.1]
    linarith [hacp.2]
  have hsrm1 : (0:ℝ) < Real.sqrt (1 / (alphasCumprodOf betas).getD t 0 - 1) :=
    Real.sqrt_pos.mpr hsub
  rw [predict_noise_from_start, predict_start_from_noise,
    sqrt_recipm1_alphas_cumprod, sqrt_recip_alphas_cumprod,
    extract_map htlen, extract_map htlen]
  rw [div_eq_iff (ne_of_gt hsrm1)]
  ring

theorem linear_acp_bounds {T : ℕ} (hT : 21 ≤ T) {t : ℕ} (ht : t < T) :
    0 < (alphasCumprodOf (linear_beta_schedule T)).getD t 0 ∧
      (alphasCumprodOf (linear_beta_schedule T)).getD t 0 < 1 := by
  have hlen : t < (alphasCumprodOf (linear_beta_schedule T)).length := by
    rw [alphasCumprodOf, cumprod_length, alphasOf, List.length_map,
      linear_beta_schedule_length]
    exact ht
  have hmem := getD_mem_of_lt hlen
  have h1 := cumprod_pos_le_one (linear_alpha_bounds hT) _ hmem
  have halpha' : ∀ x ∈ alphasOf (linear_beta_schedule T), 0 < x ∧ x < 1 := by
    intro x hx
    simp only [alphasOf, List.mem_map] at hx
    obtain ⟨b, hb, rfl⟩ := hx
    have := linear_beta_bounds hT b hb
    constructor <;> linarith [this.1, this.2]
  exact ⟨h1.1, cumprod_lt_one halpha' _ hmem⟩

/-- C4: converting a noise prediction to `x0` via `predict_start_from_noise`
and back via `predict_noise_from_start` reproduces the original noise
exactly, in exact real arithmetic, whenever the cumulative product at `t`
lies in `(0,1)` (which holds at every `t < T` for the engine's usable linear
schedules, instantiated in the second conjunct); no clipping is involved. -/
theorem predict_noise_roundtrip (betas : List ℝ) (x_t eps : ℝ) (t : ℕ)
    (hacp : 0 < (alphasCumprodOf betas).getD t 0 ∧ (alphasCumprodOf betas).getD t 0 < 1) :
    predict_noise_from_start betas x_t t (predict_start_from_noise betas x_t t eps) = eps ∧
    (∀ T : ℕ, 21 ≤ T → ∀ u : ℕ, u < T → ∀ x e : ℝ,
      predict_noise_from_start (linear_beta_schedule T) x u
        (predict_start_from_noise (linear_beta_schedule T) x u e) = e) :=
  ⟨roundtrip_of_acp hacp x_t eps,
    fun _ hT _u hu x e => roundtrip_of_acp (linear_acp_bounds hT hu) x e⟩

theorem predict_noise_roundtrip_witness :
    (0 < (alphasCumprodOf [(1:ℝ)/2]).getD 0 0 ∧
      (alphasCumprodOf [(1:ℝ)/2]).getD 0 0 < 1) ∧
    (predict_noise_from_start [(1:ℝ)/2] 3 0
        (predict_start_from_noise [(1:ℝ)/2] 3 0 5) = 5 ∧
      (∀ T : ℕ, 21 ≤ T → ∀ u : ℕ, u < T → ∀ x e : ℝ,
        predict_noise_from_start (linear_beta_schedule T) x u
          (predict_start_from_noise (linear_beta_schedule T) x u e) = e)) := by
  have h : 0 < (alphasCumprodOf [(1:ℝ)/2]).getD 0 0 ∧
      (alphasCumprodOf [(1:ℝ)/2]).getD 0 0 < 1 := by
    norm_num [alphasCumprodOf, alphasOf, cumprod]
  exact ⟨h, predict_noise_roundtrip [(1:ℝ)/2] 3 5 0 h⟩

/-- C2: for every batch size and fixed posterior mean/log-variance,
`p_sample` at `t = 0` returns exactly the posterior mean with no draw from
the noise stream, and at every `t > 0` it draws a fresh noise vector and
adds `exp(0.5*log_variance) * noise`. -/
theorem p_sample_mean_at_zero (b : ℕ) (mean logvar : Fin b → ℝ)
    (ω : ℕ → Fin b → ℝ) (g : ℕ) :
    p_sample b mean logvar 0 ω g = (mean, g) ∧
    ∀ t : ℕ, 0 < t →
      p_sample b mean logvar t ω g =
        (fun i => mean i + Real.exp (0.5 * logvar i) * ω g i, g + 1) := by
  constructor
  · simp [p_sample]
  · intro t ht
    simp [p_sample, ht]

theorem p_sample_mean_at_zero_witness :
    (p_sample 1 (fun _ => (2:ℝ)) (fun _ => (0:ℝ)) 0 (fun _ _ => (5:ℝ)) 0 =
      (fun _ => (2:ℝ), 0)) ∧
    (0 < 1 ∧
      p_sample 1 (fun _ => (2:ℝ)) (fun _ => (0:ℝ)) 1 (fun _ _ => (5:ℝ)) 0 =
        (fun i => (fun _ => (2:ℝ)) i +
          Real.exp (0.5 * (fun _ => (0:ℝ)) i) * (fun _ _ => (5:ℝ)) 0 i, 0 + 1)) := by
  have h := p_sample_mean_at_zero 1 (fun _ => (2:ℝ)) (fun _ => (0:ℝ)) (fun _ _ => (5:ℝ)) 0
  exact ⟨h.1, Nat.one_pos, h.2 1 Nat.one_pos⟩

/-- C6: with `cond_scale = 1`, `forward_with_cond_scale` returns exactly the
conditioned forward output (the single call with `cond_drop_prob = 0`),
performs no null-condition call, and applies no blending or variance
rescaling, whatever the value of `rescaled_phi` (in particular when
`rescaled_phi > 0`). -/
theorem forward_with_cond_scale_identity_at_one {ι : Type} (fwd : ℝ → ι → ℝ)
    (stdFn : (ι → ℝ) → ℝ) (rescaled_phi : ℝ) :
    forward_with_cond_scale fwd stdFn 1 rescaled_phi = (fwd 0, [0]) := by
  rw [forward_with_cond_scale, if_pos rfl]

theorem ddim_loop_counter (mp : ℝ → ℤ → ℝ × ℝ) (acp : ℕ → ℝ) (eta : ℝ) (ω : ℕ → ℝ) :
    ∀ (pairs : List (ℤ × ℤ)) (img : ℝ) (g : ℕ),
      (ddim_loop mp acp eta ω pairs img g).2 =
        g + pairs.countP (fun p => !decide (p.2 < 0)) := by
  intro pairs
  induction pairs with
  | nil => intro img g; simp [ddim_loop]
  | cons p rest ih =>
    intro img g
    obtain ⟨time, time_next⟩ := p
    simp only [ddim_loop]
    by_cases h : time_next < 0
    · have hp : (!decide ((time, time_next).2 < 0)) = false := by simp [h]
      rw [if_pos h, ih, List.countP_cons, hp, if_neg (by simp)]
      omega
    · have hp : (!decide ((time, time_next).2 < 0)) = true := by simp [h]
      rw [if_neg h, ih, List.countP_cons, hp, if_pos rfl]
      omega

theorem ddim_loop_eta_zero_deterministic (mp : ℝ → ℤ → ℝ × ℝ) (acp : ℕ → ℝ)
    (ω₁ ω₂ : ℕ → ℝ) :
    ∀ (pairs : List (ℤ × ℤ)) (img : ℝ) (g : ℕ),
      (ddim_loop mp acp 0 ω₁ pairs img g).1 = (ddim_loop mp acp 0 ω₂ pairs img g).1 := by
  intro pairs
  induction pairs with
  | nil => intro img g; rfl
  | cons p rest ih =>
    intro img g
    obtain ⟨time, time_next⟩ := p
    simp only [ddim_loop]
    by_cases h : time_next < 0
    · rw [if_pos h, if_pos h]
      exact ih _ _
    · rw [if_neg h, if_neg h]
      simp only [zero_mul, add_zero]
      exact ih _ _

theorem ddimTimes_two_two : ddimTimes 2 2 = [1, 0, -1] := by
  norm_num [ddimTimes, linspaceQ, truncInt, List.range_succ, Int.ceil_neg,
    Int.floor_one]

theorem ddimTimePairs_two_two : ddimTimePairs 2 2 = [(1, 0), (0, -1)] := by
  rw [ddimTimePairs, ddimTimes_two_two]
  rfl

/-- C1 counterexample: with `T = sampling_timesteps = 2` and `eta = 0`, the
claim's "no noise draws ever occur during the loop" is false: the loop
consumes a `randn_like` draw at the non-terminal pair `(1, 0)`, so the draw
counter after `ddim_sample` is `2` (initial image plus one loop draw), not
`1` as it would be if the loop drew nothing. -/
theorem ddim_eta_zero_still_draws :
    ¬ ((ddim_sample (fun x _ => (x, x)) (fun _ => (1:ℝ)/2) 0 2 2 (fun _ => 0) 0).1 =
        (ddim_sample (fun x _ => (x, x)) (fun _ => (1:ℝ)/2) 0 2 2 (fun _ => 0) 0).1 ∧
      (ddim_sample (fun x _ => (x, x)) (fun _ => (1:ℝ)/2) 0 2 2 (fun _ => 0) 0).2 = 1) := by
  intro h
  have h2 : (ddim_sample (fun x _ => (x, x)) (fun _ => (1:ℝ)/2) 0 2 2 (fun _ => 0) 0).2 = 2 := by
    rw [ddim_sample, ddim_loop_counter, ddimTimePairs_two_two]
    decide
  rw [h2] at h
  exact absurd h.2 (by norm_num)

/-- C1 (amended): with `eta = 0`, two runs of `ddim_sample` whose streams
agree on the starting sample draw produce identical output whatever the
remaining noise draws (`sigma = eta * (...) = 0` at every step pair), but a
noise draw still occurs at every pair with `time_next ≥ 0`: the draw
counter advances by one per non-terminal pair (plus the initial-image
draw). -/
theorem ddim_sample_eta_zero_deterministic (mp : ℝ → ℤ → ℝ × ℝ) (acp : ℕ → ℝ)
    (T s : ℕ) (ω₁ ω₂ : ℕ → ℝ) (g : ℕ) (hstart : ω₁ g = ω₂ g) :
    (ddim_sample mp acp 0 T s ω₁ g).1 = (ddim_sample mp acp 0 T s ω₂ g).1 ∧
    (ddim_sample mp acp 0 T s ω₁ g).2 =
      g + 1 + (ddimTimePairs T s).countP (fun p => !decide (p.2 < 0)) := by
  constructor
  · rw [ddim_sample, ddim_sample, hstart]
    exact ddim_loop_eta_zero_deterministic mp acp ω₁ ω₂ _ _ _
  · rw [ddim_sample, ddim_loop_counter]

theorem ddim_sample_eta_zero_deterministic_witness :
    (fun _ : ℕ => (0:ℝ)) 0 = (fun _ : ℕ => (0:ℝ)) 0 ∧
    ((ddim_sample (fun x _ => (x, x)) (fun _ => (1:ℝ)/2) 0 2 2 (fun _ => 0) 0).1 =
        (ddim_sample (fun x _ => (x, x)) (fun _ => (1:ℝ)/2) 0 2 2 (fun _ => 0) 0).1 ∧
      (ddim_sample (fun x _ => (x, x)) (fun _ => (1:ℝ)/2) 0 2 2 (fun _ => 0) 0).2 =
        0 + 1 + (ddimTimePairs 2 2).countP (fun p => !decide (p.2 < 0))) :=
  ⟨rfl, ddim_sample_eta_zero_deterministic (fun x _ => (x, x)) (fun _ => (1:ℝ)/2)
    2 2 (fun _ => 0) (fun _ => 0) 0 rfl⟩

theorem truncInt_intCast (m : ℤ) : truncInt (m : ℚ) = m := by
  rw [truncInt]
  split
  · exact Int.ceil_intCast m
  · exact Int.floor_intCast m

theorem ddimTimes_full (s : ℕ) :
    ddimTimes s s = ((List.range (s + 1)).map (fun i : ℕ => (i : ℤ) - 1)).reverse := by
  rw [ddimTimes, linspaceQ, List.map_map]
  congr 1
  apply List.map_congr_left
  intro i hi
  have hi' : i < s + 1 := List.mem_range.mp hi
  simp only [Function.comp_apply]
  by_cases hs : s = 0
  · subst hs
    have hi0 : i = 0 := by omega
    subst hi0
    rw [if_pos (by norm_num)]
    norm_num [truncInt, Int.ceil_neg, Int.floor_one]
  · rw [if_neg (by omega)]
    have hsQ : ((s : ℚ)) ≠ 0 := by exact_mod_cast hs
    have h1 : ((↑(s + 1) : ℚ) - 1) = (s : ℚ) := by push_cast; ring
    have hval : (-1 : ℚ) + ((s : ℚ) - 1 - -1) * (i : ℚ) / ((↑(s + 1) : ℚ) - 1) =
        (((i : ℤ) - 1 : ℤ) : ℚ) := by
      rw [h1, show ((s : ℚ) - 1 - -1) = (s : ℚ) by ring, mul_comm ((s : ℚ)) ((i : ℚ)),
        mul_div_assoc, div_self hsQ, mul_one]
      push_cast
      ring
    rw [hval, truncInt_intCast]

theorem ddimTimes_resume_suffix {s T : ℕ} (h : s ≤ T) :
    ddimTimes s s <:+ ddimTimes T T := by
  rw [ddimTimes_full, ddimTimes_full]
  have hTT : T + 1 = (s + 1) + (T - s) := by omega
  have hk := List.range_add (s + 1) (T - s)
  rw [← hTT] at hk
  rw [hk, List.map_append, List.reverse_append]
  exact ⟨_, rfl⟩

theorem ddimTimes_four_two : ddimTimes 4 2 = [3, 1, -1] := by
  norm_num [ddimTimes, linspaceQ, truncInt, List.range_succ, Int.ceil_neg,
    Int.floor_one]

/-- C8 counterexample: with an accelerated original schedule
(`T = 4`, `sampling_steps = 2`, grid `[3, 1, -1]`), resuming at starting
timestep `2` rebuilds the grid `[1, 0, -1]`, which is not the remaining
part `[1, -1]` of the original sampling schedule: the resumed run does not
process the remaining entries of the original schedule unchanged. -/
theorem ddim_resume_rebuilds_schedule :
    ¬ (trainer_ddim_times 4 2 (some 2) =
        (trainer_ddim_times 4 2 none).filter (fun t => decide (t < 2))) := by
  have h1 : trainer_ddim_times 4 2 (some 2) = [1, 0, -1] := by
    rw [show trainer_ddim_times 4 2 (some 2) = ddimTimes 2 2 from rfl, ddimTimes_two_two]
  have h2 : trainer_ddim_times 4 2 none = [3, 1, -1] := by
    rw [show trainer_ddim_times 4 2 none = ddimTimes 4 2 from rfl, ddimTimes_four_two]
  rw [h1, h2]
  decide

/-- C8 (amended): resuming the trainer's DDIM sampler at starting timestep
`s ≤ T` starts the loop directly from the caller-supplied sample and
rebuilds a fresh step-1 grid `[s-1, ..., 0, -1]` over the first `s`
timesteps.  That grid is a suffix of the full (`sampling_steps = T`)
sampling schedule, so the remaining entries of the original schedule are
processed unchanged exactly when the original schedule is the full one;
for an accelerated schedule the resumed grid is not the remaining part of
the original grid, and the ancestral loop in `inference` is only reachable
when `starting_timestep ≥ T`. -/
theorem ddim_resume_suffix_of_full (T sampling s : ℕ) (h : s ≤ T) :
    trainer_ddim_times T sampling (some s) =
      ((List.range (s + 1)).map (fun i : ℕ => (i : ℤ) - 1)).reverse ∧
    trainer_ddim_times T sampling (some s) <:+ trainer_ddim_times T T none ∧
    ∀ (mp : ℝ → ℤ → ℝ × ℝ) (acp : ℕ → ℝ) (eta : ℝ) (ω : ℕ → ℝ) (g : ℕ) (d : ℝ),
      trainer_ddim_sample mp acp eta T sampling (some d) (some s) ω g =
        ddim_loop mp acp eta ω
          ((trainer_ddim_times T sampling (some s)).zip
            (trainer_ddim_times T sampling (some s)).tail) d g := by
  refine ⟨ddimTimes_full s, ddimTimes_resume_suffix h, ?_⟩
  intro mp acp eta ω g d
  rfl

theorem ddim_resume_suffix_of_full_witness :
    2 ≤ 4 ∧
    (trainer_ddim_times 4 2 (some 2) =
        ((List.range (2 + 1)).map (fun i : ℕ => (i : ℤ) - 1)).reverse ∧
      trainer_ddim_times 4 2 (some 2) <:+ trainer_ddim_times 4 4 none ∧
      ∀ (mp : ℝ → ℤ → ℝ × ℝ) (acp : ℕ → ℝ) (eta : ℝ) (ω : ℕ → ℝ) (g : ℕ) (d : ℝ),
        trainer_ddim_sample mp acp eta 4 2 (some d) (some 2) ω g =
          ddim_loop mp acp eta ω
            ((trainer_ddim_times 4 2 (some 2)).zip
              (trainer_ddim_times 4 2 (some 2)).tail) d g) :=
  ⟨by decide, ddim_resume_suffix_of_full 4 2 2 (by decide)⟩

theorem build_betas_linear_pos {T : ℕ} (hT : T ≠ 0) :
    build_betas "linear" T = Except.ok (linear_beta_schedule T) := by
  rw [build_betas, if_pos rfl, if_neg hT]

theorem build_betas_linear_zero :
    build_betas "linear" 0 = Except.error "ZeroDivisionError" := by
  rw [build_betas, if_pos rfl, if_pos rfl]

theorem build_betas_cosine (T : ℕ) :
    build_betas "cosine" T = Except.ok (cosine_beta_schedule T) := by
  rw [build_betas, if_neg (by decide), if_pos rfl]

theorem build_betas_unknown {kind : String} (h1 : kind ≠ "linear")
    (h2 : kind ≠ "cosine") (T : ℕ) :
    build_betas kind T = Except.error "ValueError: unknown beta schedule" := by
  rw [build_betas, if_neg h1, if_neg h2]

theorem finish_init_too_many {obj kind : String} {betas : List ℝ} {sv : ℕ}
    (h : betas.length < sv) :
    finish_init obj kind (some sv) betas =
      Except.error "AssertionError: sampling_timesteps <= timesteps" := by
  rw [finish_init, Option.getD_some, if_neg (by omega)]

theorem cosine_beta_schedule_zero : cosine_beta_schedule 0 = [] := by
  simp [cosine_beta_schedule]

theorem engine_init_cosine_zero :
    engine_init "pred_v" "cosine" 0 none =
      Except.ok ⟨0, 0, [], "pred_v", "cosine"⟩ := by
  rw [engine_init, if_pos (Or.inr (Or.inr rfl)), build_betas_cosine,
    cosine_beta_schedule_zero]
  rfl

/-- C5 counterexample: constructing the engine with the cosine schedule and
`timesteps = 0` does not fail: `cosine_beta_schedule(0)` returns an empty
schedule, every later check passes, and construction succeeds with
`num_timesteps = 0` — contradicting "fails when T ≤ 0". -/
theorem engine_init_zero_cosine_succeeds :
    engine_init "pred_v" "cosine" 0 none =
      Except.ok ⟨0, 0, [], "pred_v", "cosine"⟩ :=
  engine_init_cosine_zero

/-- C5 (amended): construction fails fast for an unrecognized schedule kind
(`ValueError`), for an unrecognized objective (`AssertionError`), and when
`sampling_timesteps` exceeds the schedule length, with no recovery; but a
non-positive timestep count is never itself checked: with `T = 0` the
linear builder fails incidentally (`ZeroDivisionError` — not a
configuration error), while the cosine builder succeeds, producing an
engine with an empty schedule and `num_timesteps = 0`. -/
theorem engine_init_failure_modes :
    (∀ (obj kind : String) (T : ℕ) (s : Option ℕ), kind ≠ "linear" →
      kind ≠ "cosine" → isOk (engine_init obj kind T s) = false) ∧
    (∀ (obj kind : String) (T : ℕ) (s : Option ℕ), obj ≠ "pred_noise" →
      obj ≠ "pred_x0" → obj ≠ "pred_v" → isOk (engine_init obj kind T s) = false) ∧
    (∀ (obj : String) (T sv : ℕ), T < sv →
      isOk (engine_init obj "linear" T (some sv)) = false ∧
      isOk (engine_init obj "cosine" T (some sv)) = false) ∧
    (∀ (obj : String) (s : Option ℕ), isOk (engine_init obj "linear" 0 s) = false) ∧
    engine_init "pred_v" "cosine" 0 none =
      Except.ok ⟨0, 0, [], "pred_v", "cosine"⟩ := by
  refine ⟨?_, ?_, ?_, ?_, engine_init_cosine_zero⟩
  · intro obj kind T s h1 h2
    by_cases hobj : obj = "pred_noise" ∨ obj = "pred_x0" ∨ obj = "pred_v"
    · rw [engine_init, if_pos hobj, build_betas_unknown h1 h2]
      rfl
    · rw [engine_init, if_neg hobj]
      rfl
  · intro obj kind T s h1 h2 h3
    rw [engine_init, if_neg (fun hor => hor.elim h1 (fun hor2 => hor2.elim h2 h3))]
    rfl
  · intro obj T sv hTs
    have hcase : ∀ betas : List ℝ, betas.length = T →
        ∀ kind : String, build_betas kind T = Except.ok betas →
        isOk (engine_init obj kind T (some sv)) = false := by
      intro betas hlen kind hbb
      by_cases hobj : obj = "pred_noise" ∨ obj = "pred_x0" ∨ obj = "pred_v"
      · rw [engine_init, if_pos hobj, hbb]
        show isOk (finish_init obj kind (some sv) betas) = false
        rw [finish_init_too_many (by omega)]
        rfl
      · rw [engine_init, if_neg hobj]
        rfl
    constructor
    · by_cases hT : T = 0
      · subst hT
        by_cases hobj : obj = "pred_noise" ∨ obj = "pred_x0" ∨ obj = "pred_v"
        · rw [engine_init, if_pos hobj, build_betas_linear_zero]
          rfl
        · rw [engine_init, if_neg hobj]
          rfl
      · exact hcase _ (linear_beta_schedule_length T) "linear"
          (build_betas_linear_pos hT)
    · exact hcase _ (cosine_beta_schedule_length T) "cosine"
        (build_betas_cosine T)
  · intro obj s
    by_cases hobj : obj = "pred_noise" ∨ obj = "pred_x0" ∨ obj = "pred_v"
    · rw [engine_init, if_pos hobj, build_betas_linear_zero]
      rfl
    · rw [engine_init, if_neg hobj]
      rfl

theorem engine_init_failure_modes_witness :
    ("bogus" : String) ≠ "linear" ∧ ("bogus" : String) ≠ "cosine" ∧
    isOk (engine_init "pred_v" "bogus" 5 none) = false :=
  ⟨by decide, by decide,
    engine_init_failure_modes.1 "pred_v" "bogus" 5 none (by decide) (by decide)⟩

/-- C9 counterexample: with classifier-free guidance on, `drop_prob = 1/2`,
batch size 1, `cond_dim = 2`, an all-ones condition, and per-element
uniform draws `(1, 0)`, the condition handed to the network call is
`(1, 0)`: element 0 kept, element 1 zeroed.  The batch element's vector is
neither kept nor zeroed as a unit, so the dropout is per-element, not
per-sample as the claim states. -/
theorem p_losses_mask_not_per_sample :
    ¬ (∀ i : Fin 1,
        (∀ j, (p_losses 1 2 1 [(1:ℝ)/2] true (1/2) "pred_noise" [1] zeroModel
            zeroVec1 zeroT condOnes zeroMat1 zeroVec1 uSplit zeroMat1).2.cond i j =
          condOnes i j) ∨
        (∀ j, (p_losses 1 2 1 [(1:ℝ)/2] true (1/2) "pred_noise" [1] zeroModel
            zeroVec1 zeroT condOnes zeroMat1 zeroVec1 uSplit zeroMat1).2.cond i j =
          0)) := by
  intro h
  have e1 : (p_losses 1 2 1 [(1:ℝ)/2] true (1/2) "pred_noise" [1] zeroModel
      zeroVec1 zeroT condOnes zeroMat1 zeroVec1 uSplit zeroMat1).2.cond 0 1 = 0 := by
    show condOnes 0 1 * (if (1:ℝ)/2 < uSplit 0 1 then 1 else 0) = 0
    norm_num [condOnes, uSplit]
  have e0 : (p_losses 1 2 1 [(1:ℝ)/2] true (1/2) "pred_noise" [1] zeroModel
      zeroVec1 zeroT condOnes zeroMat1 zeroVec1 uSplit zeroMat1).2.cond 0 0 = 1 := by
    show condOnes 0 0 * (if (1:ℝ)/2 < uSplit 0 0 then 1 else 0) = 1
    norm_num [condOnes, uSplit]
  rcases h 0 with hkeep | hzero
  · have h1 := hkeep 1
    rw [e1] at h1
    norm_num [condOnes] at h1
  · have h0 := hzero 0
    rw [e0] at h0
    norm_num at h0

/-- C9 (amended): with classifier-free guidance enabled, `p_losses` zeroes
the condition and the initial-state *element-wise*: each scalar entry is
kept or zeroed by its own independent Bernoulli(`drop_prob`) draw
(`torch.rand(cond.shape) > drop_prob`), not whole per-sample vectors as a
unit.  The single network invocation then receives the masked tensors
together with the forward-noised sample `q_sample(x_start, t, noise)`. -/
theorem p_losses_elementwise_dropout (b dc di : ℕ) (betas : List ℝ)
    (drop_prob : ℝ) (objective : String) (loss_weight : List ℝ)
    (M : ModelCall b dc di → Fin b → ℝ) (x_start : Fin b → ℝ) (t : Fin b → ℕ)
    (cond : Fin b → Fin dc → ℝ) (inits : Fin b → Fin di → ℝ) (noise : Fin b → ℝ)
    (u_cond : Fin b → Fin dc → ℝ) (u_inits : Fin b → Fin di → ℝ) :
    (p_losses b dc di betas true drop_prob objective loss_weight M x_start t cond
        inits noise u_cond u_inits).2 =
      ⟨fun i => q_sample betas (x_start i) (t i) (noise i), t,
        fun i j => cond i j * (if drop_prob < u_cond i j then 1 else 0),
        fun i j => inits i j * (if drop_prob < u_inits i j then 1 else 0)⟩ := rfl

end DifS
